import Mathlib

/-!
Shallow embedding of the f5 threading library (eventfd.hpp and map.hpp).

The eventfd based channel and limiter work over uint64 values; machine
arithmetic is modelled as Nat with explicit reduction modulo 2^64 at every
operation that the C++ performs on a uint64 (the atomic += , -= and ++).
The asynchronous suspension of consume/wait is modelled by threading the
stream of values that the suspending reads would return: a run of a loop
takes the list of observations it will make and returns none when the list
is exhausted while the loop still wants to suspend.
-/

namespace F5

/-- Modulus of uint64 arithmetic. -/
def W : Nat := 2 ^ 64

/-- Addition as on uint64: the C++ atomic += and ++. -/
def add64 (a b : Nat) : Nat := (a + b) % W

/-- Subtraction as on uint64: the C++ atomic -= wraps modulo 2^64. -/
def sub64 (a b : Nat) : Nat := (a + (W - b % W)) % W

/-!
Signal channel (class unlimited over eventfd::fd).  The kernel counter is
modelled as a Nat; produced adds the written uint64 count, consume returns
the accumulated value and resets it to zero, suspending (none) while the
counter is zero.  The kernel cap on the accumulated value is out of scope
per the specification.
-/

/-- The unlimited channel's produced(count): async_write of the 8-byte
count, which the kernel adds to the eventfd counter. -/
def produced (state : Nat) (count : Nat) : Nat := state + count % W

/-- The unlimited channel's consume(): fd.async_read yields until the
counter is nonzero, then returns it and resets the counter to zero.
Result is (value returned, new counter state); none while it would
stay suspended. -/
def consume (state : Nat) : Option (Nat × Nat) :=
  if state = 0 then none else some (state, 0)

/-!
Limiter jobs (class limiter::job).  A job carries one boolean completed
flag, initialised false by the constructor.  done(efn) signals completion
once: if not completed it sets the flag and async_writes a count of 1 to
the limiter's fd; otherwise it does nothing.  The destructor calls done
with a no-op error handler.  doneStep returns the new flag together with
the magnitude of the signal sent by this call (0 when it is a no-op).
-/

/-- One call of job::done: (new completed flag, signal magnitude sent). -/
def doneStep (completed : Bool) : Bool × Nat :=
  if completed then (true, 0) else (true, 1)

/-- Total signal magnitude sent over a job's lifetime consisting of n
explicit done() calls followed by the destructor (which calls done with a
no-op error handler), starting from flag c. -/
def jobRun : Nat → Bool → Nat
  | 0, c => (doneStep c).2
  | n + 1, c => (doneStep c).2 + jobRun n (doneStep c).1

/-- Lifetime signal total for a fresh job (constructor sets completed to
false) on which done() is called explicitly n times before destruction. -/
def jobLifetimeSignals (n : Nat) : Nat := jobRun n false

/-!
Limiter admission (limiter::next_job) and draining
(limiter::wait_for_all_outstanding).  Both loops interleave reads of
shared state with suspending waits; a run is parameterised by the
observations the loop makes.  For next_job each iteration loads m_limit
once and, if it does not admit, obtains one batch from wait(); a LoopObs
records the pair of values that iteration would see.  wait() subtracts the
whole batch from m_outstanding (uint64 arithmetic).
-/

/-- Values observed by one iteration of the next_job loop: the m_limit
load, and the batch wait() would return were it called this iteration. -/
structure LoopObs where
  limit : Nat
  batch : Nat

/-- limiter::next_job: loop { load limit; if limit == 0 or outstanding <
limit, break; wait (subtract batch) }, then ++m_outstanding and return a
fresh job (completed = false).  Returns (new outstanding, job flag);
none when the observation list runs out while still suspended. -/
def next_job : List LoopObs → Nat → Option (Nat × Bool)
  | [], _ => none
  | i :: rest, outstanding =>
      if i.limit = 0 ∨ outstanding < i.limit then
        some (add64 outstanding 1, false)
      else
        next_job rest (sub64 outstanding i.batch)

/-- limiter::wait_for_all_outstanding: while (m_outstanding) wait(yield).
Given the stream of batches the waits would return and the current
outstanding count, returns (final outstanding, unconsumed batches), or
none when the stream runs out while outstanding is still nonzero. -/
def wait_for_all_outstanding : List Nat → Nat → Option (Nat × List Nat)
  | bs, 0 => some (0, bs)
  | [], _ + 1 => none
  | b :: rest, o + 1 => wait_for_all_outstanding rest (sub64 (o + 1) b)

/-- limiter::increase_limit: m_limit += l, returning the new value. -/
def increase_limit (m_limit l : Nat) : Nat := add64 m_limit l

/-- limiter::decrease_limit: m_limit -= l, returning the new value. -/
def decrease_limit (m_limit l : Nat) : Nat := sub64 m_limit l

/-!
Thread safe map (class tsmap in map.hpp): a vector of (key, value) pairs,
modelled as a List (Nat × V) with Nat keys (the C++ key type is ordered by
operator <).  Every public operation takes the mutex for its whole body,
so each is a single atomic step of the model and the mutex itself needs no
representation.  Iterators are modelled as indices; map.end() is the index
map.length.
-/

/-- tsmap::lower_bound: std::lower_bound over the vector with the
comparison l.first < r, i.e. the index of the first entry whose key is not
less than k (map.length when every key is less than k). -/
def lower_bound {V : Type} (l : List (Nat × V)) (k : Nat) : Nat :=
  match l with
  | [] => 0
  | e :: rest => if e.1 < k then lower_bound rest k + 1 else 0

/-- tsmap::find: binary search, then return the value at the found
iterator unless it is map.end().  The C++ dereferences the lower_bound
iterator without comparing its key against k. -/
def find {V : Type} (l : List (Nat × V)) (k : Nat) : Option V :=
  match l[lower_bound l k]? with
  | some e => some e.2
  | none => none

/-- The presence check shared by emplace_if_not_found and
add_if_not_found: bound != map.end() && bound->first == k, paired with
the value bound->second that the early return would yield. -/
def valueAt {V : Type} (l : List (Nat × V)) (k : Nat) : Option V :=
  match l[lower_bound l k]? with
  | some e => if e.1 = k then some e.2 else none
  | none => none

/-- tsmap::emplace_if_not_found: if the entry at the lower bound exists
and carries key k, return the map unchanged with that entry's value;
otherwise emplace (k, v) at the lower bound iterator and return v. -/
def emplace_if_not_found {V : Type} (l : List (Nat × V)) (k : Nat) (v : V) :
    List (Nat × V) × V :=
  match l[lower_bound l k]? with
  | some e =>
      if e.1 = k then (l, e.2)
      else (List.insertIdx (lower_bound l k) (k, v) l, v)
  | none => (List.insertIdx (lower_bound l k) (k, v) l, v)

/-- tsmap::add_if_not_found: as emplace_if_not_found but the value is
lambda(), invoked only in the insertion branch.  The third component
counts the factory invocations performed by the call. -/
def add_if_not_found {V : Type} (l : List (Nat × V)) (k : Nat)
    (lambda : Unit → V) : List (Nat × V) × V × Nat :=
  match l[lower_bound l k]? with
  | some e =>
      if e.1 = k then (l, e.2, 0)
      else (List.insertIdx (lower_bound l k) (k, lambda ()) l, lambda (), 1)
  | none => (List.insertIdx (lower_bound l k) (k, lambda ()) l, lambda (), 1)

/-- One public tsmap operation, for stating reachability of map states. -/
inductive MapOp (V : Type) where
  | find (k : Nat)
  | emplace (k : Nat) (v : V)
  | add (k : Nat) (lambda : Unit → V)

/-- Effect of one tsmap operation on the stored vector (find leaves the
map unchanged). -/
def applyOp {V : Type} (l : List (Nat × V)) : MapOp V → List (Nat × V)
  | .find _ => l
  | .emplace k v => (emplace_if_not_found l k v).1
  | .add k f => (add_if_not_found l k f).1

/-- Map state reached by running a sequence of operations from the empty
map (the constructed tsmap holds an empty vector). -/
def runOps {V : Type} (ops : List (MapOp V)) : List (Nat × V) :=
  ops.foldl applyOp []

/-- The tsmap invariant: entries strictly ascending by key, hence keys
unique. -/
def sortedKeys {V : Type} (l : List (Nat × V)) : Prop :=
  List.Pairwise (fun a b => a.1 < b.1) l

/-- Recursive form of inserting at the lower bound position: walk past
the entries whose key is below k and place the new entry there. -/
def insertLB {V : Type} (k : Nat) (v : V) : List (Nat × V) → List (Nat × V)
  | [] => [(k, v)]
  | e :: rest => if e.1 < k then e :: insertLB k v rest else (k, v) :: e :: rest

/-! Helper lemmas about the limiter loops and the job protocol. -/

/-- Once the completed flag is set, done never sends another signal. -/
lemma jobRun_true (n : Nat) : jobRun n true = 0 := by
  induction n with
  | zero => rfl
  | succ m ih => simpa [jobRun, doneStep] using ih

/-- wait_for_all_outstanding with a zero outstanding count returns at
once, consuming nothing. -/
lemma waitAll_zero (bs : List Nat) : wait_for_all_outstanding bs 0 = some (0, bs) := by
  cases bs <;> rfl

/-- When wait_for_all_outstanding returns, the outstanding count is 0. -/
lemma waitAll_final (bs : List Nat) :
    ∀ o r, wait_for_all_outstanding bs o = some r → r.1 = 0 := by
  induction bs with
  | nil =>
      intro o r h
      cases o with
      | zero =>
          rw [waitAll_zero] at h
          cases h
          rfl
      | succ m => cases h
  | cons b rest ih =>
      intro o r h
      cases o with
      | zero =>
          rw [waitAll_zero] at h
          cases h
          rfl
      | succ m => exact ih _ r h

/-- Folding produced over a list of uint64 counts accumulates their sum
onto the counter. -/
lemma foldl_produced (ns : List Nat) (s : Nat) (h : ∀ n ∈ ns, n < W) :
    ns.foldl produced s = s + ns.sum := by
  induction ns generalizing s with
  | nil => simp
  | cons n rest ih =>
      have hn : n % W = n := Nat.mod_eq_of_lt (h n (by simp))
      have hrest : ∀ m ∈ rest, m < W := fun m hm => h m (by simp [hm])
      rw [List.foldl_cons, ih (produced s n) hrest]
      simp only [produced, hn, List.sum_cons]
      omega

/-! Helper lemmas about the map. -/

/-- Emplacing at the lower bound iterator is the recursive insertion. -/
lemma insertIdx_lower_bound {V : Type} (l : List (Nat × V)) (k : Nat) (v : V) :
    List.insertIdx (lower_bound l k) (k, v) l = insertLB k v l := by
  induction l with
  | nil => rfl
  | cons e rest ih =>
      by_cases h : e.1 < k
      · simp [lower_bound, insertLB, h, List.insertIdx_succ_cons, ih]
      · simp [lower_bound, insertLB, h, List.insertIdx_zero]

/-- The presence check skips a leading entry whose key is below k. -/
lemma valueAt_cons_lt {V : Type} (e : Nat × V) (rest : List (Nat × V)) (k : Nat)
    (h : e.1 < k) : valueAt (e :: rest) k = valueAt rest k := by
  unfold valueAt
  simp only [lower_bound, if_pos h, List.getElem?_cons_succ]

/-- The presence check stops at a leading entry whose key is not below
k: that entry is the lower bound. -/
lemma valueAt_cons_ge {V : Type} (e : Nat × V) (rest : List (Nat × V)) (k : Nat)
    (h : ¬e.1 < k) : valueAt (e :: rest) k = if e.1 = k then some e.2 else none := by
  unfold valueAt
  simp only [lower_bound, if_neg h, List.getElem?_cons_zero]

/-- The presence check misses on the empty map. -/
lemma valueAt_nil {V : Type} (k : Nat) : valueAt ([] : List (Nat × V)) k = none := rfl

/-- A hit of the presence check is a genuine entry of the map. -/
lemma valueAt_mem {V : Type} (l : List (Nat × V)) (k : Nat) (v : V)
    (h : valueAt l k = some v) : (k, v) ∈ l := by
  induction l with
  | nil => rw [valueAt_nil] at h; cases h
  | cons e rest ih =>
      by_cases hlt : e.1 < k
      · rw [valueAt_cons_lt e rest k hlt] at h
        exact List.mem_cons_of_mem e (ih h)
      · rw [valueAt_cons_ge e rest k hlt] at h
        by_cases hk : e.1 = k
        · rw [if_pos hk] at h
          have he2 : e.2 = v := by injection h
          have he : e = (k, v) := Prod.ext hk he2
          exact he ▸ List.mem_cons_self e rest
        · rw [if_neg hk] at h; cases h

/-- On a map with strictly ascending keys, the presence check finds every
entry that is in the map. -/
lemma valueAt_eq_some {V : Type} (l : List (Nat × V)) (k : Nat) (v : V)
    (hs : sortedKeys l) (hm : (k, v) ∈ l) : valueAt l k = some v := by
  induction l with
  | nil => cases hm
  | cons e rest ih =>
      have hlt : ∀ x ∈ rest, e.1 < x.1 := (List.pairwise_cons.1 hs).1
      have hrest : sortedKeys rest := (List.pairwise_cons.1 hs).2
      by_cases h : e.1 < k
      · have hm2 : (k, v) ∈ rest := by
          cases hm with
          | head => exact absurd h (by simp)
          | tail _ t => exact t
        rw [valueAt_cons_lt e rest k h]
        exact ih hrest hm2
      · cases hm with
        | head =>
            rw [valueAt_cons_ge (k, v) rest k h]
            simp
        | tail _ t =>
            exact absurd (hlt _ t) h

/-- On a map with strictly ascending keys, a miss of the presence check
means the key is on no entry at all. -/
lemma valueAt_none_not_mem {V : Type} (l : List (Nat × V)) (k : Nat)
    (hs : sortedKeys l) (h : valueAt l k = none) : ∀ e ∈ l, e.1 ≠ k := by
  intro e he hek
  have : (k, e.2) ∈ l := by
    have : e = (k, e.2) := by cases e; simp_all
    rw [← this]
    exact he
  rw [valueAt_eq_some l k e.2 hs this] at h
  cases h

/-- After inserting (k, v) at the lower bound, the presence check for k
finds exactly that value. -/
lemma valueAt_insertLB {V : Type} (l : List (Nat × V)) (k : Nat) (v : V) :
    valueAt (insertLB k v l) k = some v := by
  induction l with
  | nil =>
      rw [insertLB, valueAt_cons_ge (k, v) [] k (by omega)]
      simp
  | cons e rest ih =>
      by_cases h : e.1 < k
      · rw [insertLB, if_pos h, valueAt_cons_lt e (insertLB k v rest) k h]
        exact ih
      · rw [insertLB, if_neg h, valueAt_cons_ge (k, v) (e :: rest) k (by omega)]
        simp

/-- Entries of the inserted map are the new entry or old entries. -/
lemma mem_insertLB {V : Type} (l : List (Nat × V)) (k : Nat) (v : V) :
    ∀ x ∈ insertLB k v l, x = (k, v) ∨ x ∈ l := by
  induction l with
  | nil => simp [insertLB]
  | cons e rest ih =>
      intro x hx
      by_cases h : e.1 < k
      · rw [insertLB, if_pos h] at hx
        cases hx with
        | head => right; exact List.mem_cons_self e rest
        | tail _ t =>
            cases ih x t with
            | inl heq => left; exact heq
            | inr hmem => right; exact List.mem_cons_of_mem e hmem
      · rw [insertLB, if_neg h] at hx
        cases hx with
        | head => left; rfl
        | tail _ t => right; exact t

/-- Inserting an absent key at its lower bound keeps the keys strictly
ascending. -/
lemma sorted_insertLB {V : Type} (l : List (Nat × V)) (k : Nat) (v : V)
    (hs : sortedKeys l) (habs : ∀ e ∈ l, e.1 ≠ k) :
    sortedKeys (insertLB k v l) := by
  induction l with
  | nil => simp [insertLB, sortedKeys]
  | cons e rest ih =>
      have hlt : ∀ x ∈ rest, e.1 < x.1 := (List.pairwise_cons.1 hs).1
      have hrest : sortedKeys rest := (List.pairwise_cons.1 hs).2
      have habs2 : ∀ x ∈ rest, x.1 ≠ k := fun x hx =>
        habs x (List.mem_cons_of_mem e hx)
      by_cases h : e.1 < k
      · rw [insertLB, if_pos h]
        refine List.pairwise_cons.2 ⟨?_, ih hrest habs2⟩
        intro x hx
        cases mem_insertLB rest k v x hx with
        | inl heq => rw [heq]; exact h
        | inr hmem => exact hlt x hmem
      · rw [insertLB, if_neg h]
        have hek : k < e.1 := by
          have := habs e (List.mem_cons_self e rest)
          omega
        refine List.pairwise_cons.2 ⟨?_, hs⟩
        intro x hx
        cases hx with
        | head => exact hek
        | tail _ t => exact lt_trans hek (hlt x t)

/-- When the presence check hits, emplace_if_not_found returns the map
unchanged together with the stored value. -/
lemma emplace_hit {V : Type} (l : List (Nat × V)) (k : Nat) (x v : V)
    (h : valueAt l k = some x) : emplace_if_not_found l k v = (l, x) := by
  unfold valueAt at h
  unfold emplace_if_not_found
  rcases hg : l[lower_bound l k]? with _ | e
  · rw [hg] at h
    exact Option.noConfusion h
  · rw [hg] at h
    change (if e.1 = k then some e.2 else none) = some x at h
    change (if e.1 = k then (l, e.2) else (List.insertIdx (lower_bound l k) (k, v) l, v)) = (l, x)
    by_cases hk : e.1 = k
    · rw [if_pos hk] at h ⊢
      injection h with h2
      rw [h2]
    · rw [if_neg hk] at h
      exact Option.noConfusion h

/-- When the presence check misses, emplace_if_not_found inserts at the
lower bound and returns the new value. -/
lemma emplace_miss {V : Type} (l : List (Nat × V)) (k : Nat) (v : V)
    (h : valueAt l k = none) : emplace_if_not_found l k v = (insertLB k v l, v) := by
  unfold valueAt at h
  unfold emplace_if_not_found
  rcases hg : l[lower_bound l k]? with _ | e
  · show (List.insertIdx (lower_bound l k) (k, v) l, v) = _
    rw [insertIdx_lower_bound]
  · rw [hg] at h
    change (if e.1 = k then some e.2 else none) = none at h
    change (if e.1 = k then (l, e.2) else (List.insertIdx (lower_bound l k) (k, v) l, v)) = _
    by_cases hk : e.1 = k
    · rw [if_pos hk] at h
      exact Option.noConfusion h
    · rw [if_neg hk, insertIdx_lower_bound]

/-- When the presence check hits, add_if_not_found returns the map
unchanged with the stored value, invoking the factory zero times. -/
lemma add_hit {V : Type} (l : List (Nat × V)) (k : Nat) (x : V) (f : Unit → V)
    (h : valueAt l k = some x) : add_if_not_found l k f = (l, x, 0) := by
  unfold valueAt at h
  unfold add_if_not_found
  rcases hg : l[lower_bound l k]? with _ | e
  · rw [hg] at h
    exact Option.noConfusion h
  · rw [hg] at h
    change (if e.1 = k then some e.2 else none) = some x at h
    change (if e.1 = k then (l, e.2, 0)
        else (List.insertIdx (lower_bound l k) (k, f ()) l, f (), 1)) = (l, x, 0)
    by_cases hk : e.1 = k
    · rw [if_pos hk] at h ⊢
      injection h with h2
      rw [h2]
    · rw [if_neg hk] at h
      exact Option.noConfusion h

/-- When the presence check misses, add_if_not_found invokes the factory
once and inserts its result at the lower bound. -/
lemma add_miss {V : Type} (l : List (Nat × V)) (k : Nat) (f : Unit → V)
    (h : valueAt l k = none) :
    add_if_not_found l k f = (insertLB k (f ()) l, f (), 1) := by
  unfold valueAt at h
  unfold add_if_not_found
  rcases hg : l[lower_bound l k]? with _ | e
  · show (List.insertIdx (lower_bound l k) (k, f ()) l, f (), 1) = _
    rw [insertIdx_lower_bound]
  · rw [hg] at h
    change (if e.1 = k then some e.2 else none) = none at h
    change (if e.1 = k then (l, e.2, 0)
        else (List.insertIdx (lower_bound l k) (k, f ()) l, f (), 1)) = _
    by_cases hk : e.1 = k
    · rw [if_pos hk] at h
      exact Option.noConfusion h
    · rw [if_neg hk, insertIdx_lower_bound]

/-- emplace_if_not_found preserves the sorted-unique-keys invariant. -/
lemma sorted_emplace {V : Type} (l : List (Nat × V)) (k : Nat) (v : V)
    (hs : sortedKeys l) : sortedKeys (emplace_if_not_found l k v).1 := by
  cases hv : valueAt l k with
  | some x => rw [emplace_hit l k x v hv]; exact hs
  | none =>
      rw [emplace_miss l k v hv]
      exact sorted_insertLB l k v hs (valueAt_none_not_mem l k hs hv)

/-- add_if_not_found preserves the sorted-unique-keys invariant. -/
lemma sorted_add {V : Type} (l : List (Nat × V)) (k : Nat) (f : Unit → V)
    (hs : sortedKeys l) : sortedKeys (add_if_not_found l k f).1 := by
  cases hv : valueAt l k with
  | some x => rw [add_hit l k x f hv]; exact hs
  | none =>
      rw [add_miss l k f hv]
      exact sorted_insertLB l k (f ()) hs (valueAt_none_not_mem l k hs hv)

/-- Every public operation preserves the invariant. -/
lemma sorted_applyOp {V : Type} (l : List (Nat × V)) (op : MapOp V)
    (hs : sortedKeys l) : sortedKeys (applyOp l op) := by
  cases op with
  | find k => exact hs
  | emplace k v => exact sorted_emplace l k v hs
  | add k f => exact sorted_add l k f hs

/-- Running any sequence of operations from a sorted map keeps it
sorted. -/
lemma sorted_foldl {V : Type} (ops : List (MapOp V)) :
    ∀ l, sortedKeys l → sortedKeys (List.foldl applyOp l ops) := by
  induction ops with
  | nil => intro l hs; exact hs
  | cons op rest ih =>
      intro l hs
      exact ih (applyOp l op) (sorted_applyOp l op hs)

/-! Claim theorems. -/

/-- C1: the claim states that find of an absent key returns "not found"
and in particular never yields a value stored under another key.  The
code dereferences the lower_bound iterator without comparing its key to
the query, so on the one entry map with 42 stored under key 1, looking up
the absent key 0 returns the value stored under key 1 instead of the
"not found" result; the presence check used by the insertion operations
classifies key 0 as absent on the same map. -/
theorem C1_find_absent_key_bug :
    F5.find [(1, 42)] 0 = some 42 ∧
    0 ∉ List.map Prod.fst [(1, 42)] ∧
    valueAt [(1, 42)] 0 = none := by
  decide

/-- C2: over a job's whole lifetime of n explicit done calls followed by
the destructor, exactly one completion signal of magnitude 1 is sent: the
first done call flips the completed flag and sends magnitude 1, every
later call is a no-op sending nothing. -/
theorem C2_job_single_signal (n : Nat) :
    jobLifetimeSignals n = 1 ∧ doneStep false = (true, 1) ∧ doneStep true = (true, 0) := by
  refine ⟨?_, rfl, rfl⟩
  cases n with
  | zero => rfl
  | succ m =>
      show jobRun (m + 1) false = 1
      simp [jobRun, doneStep, jobRun_true]

/-- C3: next_job admits immediately exactly when the freshly loaded limit
is zero or outstanding is below it, incrementing outstanding by one and
returning a fresh job; otherwise it suspends, subtracts the whole batch
returned by wait from outstanding and retries with the next observation
of the limit. -/
theorem C3_admission (i : LoopObs) (rest : List LoopObs) (o : Nat) :
    (i.limit = 0 ∨ o < i.limit → next_job (i :: rest) o = some (add64 o 1, false)) ∧
    (¬(i.limit = 0 ∨ o < i.limit) →
      next_job (i :: rest) o = next_job rest (sub64 o i.batch)) := by
  constructor
  · intro h
    simp only [next_job, if_pos h]
  · intro h
    simp only [next_job, if_neg h]

theorem C3_admission_witness :
    next_job [⟨0, 5⟩] 3 = some (add64 3 1, false) :=
  (C3_admission ⟨0, 5⟩ [] 3).1 (Or.inl rfl)

/-- C4: wait_for_all_outstanding returns immediately (consuming no batch)
when outstanding is zero on entry, its final outstanding count is always
zero when it returns, and while outstanding is nonzero it consumes one
whole batch per iteration, subtracting it from outstanding. -/
theorem C4_drain (bs : List Nat) (o : Nat) :
    wait_for_all_outstanding bs 0 = some (0, bs) ∧
    (∀ r, wait_for_all_outstanding bs o = some r → r.1 = 0) ∧
    (∀ b rest, o ≠ 0 →
      wait_for_all_outstanding (b :: rest) o = wait_for_all_outstanding rest (sub64 o b)) := by
  refine ⟨waitAll_zero bs, waitAll_final bs o, ?_⟩
  intro b rest ho
  cases o with
  | zero => exact absurd rfl ho
  | succ m => simp [wait_for_all_outstanding]

theorem C4_drain_witness :
    wait_for_all_outstanding [2] 0 = some (0, [2]) ∧
    ((0 : Nat), ([] : List Nat)).1 = 0 ∧
    wait_for_all_outstanding [2] 2 = wait_for_all_outstanding [] (sub64 2 2) :=
  ⟨(C4_drain [2] 2).1, (C4_drain [2] 2).2.1 (0, []) (by decide),
    (C4_drain [2] 2).2.2 2 [] (by decide)⟩

/-- C5: any sequence of produces followed by one consume yields exactly
the sum of the produced counts (each a uint64 value) and resets the
accumulated counter to zero; the hypothesis that the sum is positive
reflects that consume suspends rather than returning while the counter
is zero. -/
theorem C5_channel_sum (ns : List Nat) (h : ∀ n ∈ ns, n < W) (hpos : 0 < ns.sum) :
    consume (ns.foldl produced 0) = some (ns.sum, 0) := by
  rw [foldl_produced ns 0 h, Nat.zero_add]
  unfold consume
  rw [if_neg (by omega)]

theorem C5_channel_sum_witness :
    consume (List.foldl produced 0 [2, 3]) = some (List.sum [2, 3], 0) :=
  C5_channel_sum [2, 3] (by decide) (by decide)

/-- C6: increase_limit stores and returns the old limit plus the delta
and decrease_limit the old limit minus the delta, both reduced modulo
2^64 as uint64 arithmetic, with no floor: decreasing below zero wraps
around instead of saturating. -/
theorem C6_limit_arith (L d : Nat) (_hL : L < W) (hd : d < W) :
    increase_limit L d = (L + d) % W ∧
    decrease_limit L d = (L + (W - d)) % W ∧
    (L < d → decrease_limit L d ≠ 0) := by
  have hdm : d % W = d := Nat.mod_eq_of_lt hd
  refine ⟨rfl, ?_, ?_⟩
  · unfold decrease_limit sub64
    rw [hdm]
  · intro hLd
    unfold decrease_limit sub64
    rw [hdm]
    have h1 : L + (W - d) < W := by omega
    rw [Nat.mod_eq_of_lt h1]
    omega

theorem C6_limit_arith_witness :
    increase_limit 3 4 = (3 + 4) % W ∧
    decrease_limit 3 4 = (3 + (W - 4)) % W ∧
    (3 < 4 → decrease_limit 3 4 ≠ 0) :=
  C6_limit_arith 3 4 (by decide) (by decide)

/-- C7: every map state reachable from the empty map by find, emplace and
add operations has strictly ascending (hence unique) keys, and whenever
the presence check misses, both insertion operations place the new entry
at the lower bound position for its key. -/
theorem C7_sorted_unique (ops : List (MapOp Nat)) :
    sortedKeys (runOps ops) ∧
    (∀ l : List (Nat × Nat), ∀ k v : Nat, valueAt l k = none →
      (emplace_if_not_found l k v).1 = List.insertIdx (lower_bound l k) (k, v) l ∧
      (add_if_not_found l k fun _ => v).1 = List.insertIdx (lower_bound l k) (k, v) l) := by
  constructor
  · exact sorted_foldl ops [] List.Pairwise.nil
  · intro l k v hv
    constructor
    · rw [emplace_miss l k v hv, insertIdx_lower_bound]
    · rw [add_miss l k (fun _ => v) hv, insertIdx_lower_bound]

theorem C7_sorted_unique_witness :
    sortedKeys (runOps [MapOp.emplace 1 10]) ∧
    ((emplace_if_not_found [(2, 9)] 1 5).1 =
        List.insertIdx (lower_bound [(2, 9)] 1) (1, 5) [(2, 9)] ∧
      (add_if_not_found [(2, 9)] 1 fun _ => 5).1 =
        List.insertIdx (lower_bound [(2, 9)] 1) (1, 5) [(2, 9)]) :=
  ⟨(C7_sorted_unique [MapOp.emplace 1 10]).1,
    (C7_sorted_unique [MapOp.emplace 1 10]).2 [(2, 9)] 1 5 (by decide)⟩

/-- C8: emplace_if_not_found called twice with the same key returns the
same stored value both times, the second call ignoring its own
constructor argument and leaving the map unchanged, and the map resulting
from the first call has strictly ascending keys, so no key ever appears
twice. -/
theorem C8_emplace_idempotent (l : List (Nat × Nat)) (k v w : Nat)
    (hs : sortedKeys l) :
    emplace_if_not_found (emplace_if_not_found l k v).1 k w =
      ((emplace_if_not_found l k v).1, (emplace_if_not_found l k v).2) ∧
    sortedKeys (emplace_if_not_found l k v).1 := by
  cases hv : valueAt l k with
  | some x =>
      rw [emplace_hit l k x v hv]
      exact ⟨emplace_hit l k x w hv, hs⟩
  | none =>
      rw [emplace_miss l k v hv]
      refine ⟨?_, sorted_insertLB l k v hs (valueAt_none_not_mem l k hs hv)⟩
      exact emplace_hit (insertLB k v l) k v w (valueAt_insertLB l k v)

theorem C8_emplace_idempotent_witness :
    emplace_if_not_found (emplace_if_not_found ([] : List (Nat × Nat)) 1 10).1 1 99 =
      ((emplace_if_not_found ([] : List (Nat × Nat)) 1 10).1,
        (emplace_if_not_found ([] : List (Nat × Nat)) 1 10).2) ∧
    sortedKeys (emplace_if_not_found ([] : List (Nat × Nat)) 1 10).1 :=
  C8_emplace_idempotent [] 1 10 99 List.Pairwise.nil

/-- C9: when the key is absent, add_if_not_found invokes the factory
exactly once and stores its result as the value found under the key in
the resulting map; when the key is present it performs zero factory
invocations and returns the value already stored under the key. -/
theorem C9_factory_once (l : List (Nat × Nat)) (k : Nat) (f : Unit → Nat)
    (hs : sortedKeys l) :
    (k ∉ List.map Prod.fst l →
      add_if_not_found l k f = (insertLB k (f ()) l, f (), 1) ∧
      valueAt (add_if_not_found l k f).1 k = some (f ())) ∧
    (k ∈ List.map Prod.fst l →
      (add_if_not_found l k f).2.2 = 0 ∧
      valueAt l k = some (add_if_not_found l k f).2.1 ∧
      (add_if_not_found l k f).1 = l) := by
  constructor
  · intro habs
    have hv : valueAt l k = none := by
      cases hvv : valueAt l k with
      | none => rfl
      | some x =>
          exact absurd (List.mem_map.2 ⟨(k, x), valueAt_mem l k x hvv, rfl⟩) habs
    rw [add_miss l k f hv]
    exact ⟨rfl, valueAt_insertLB l k (f ())⟩
  · intro hmem
    obtain ⟨e, he, hek⟩ := List.mem_map.1 hmem
    have hm : (k, e.2) ∈ l := by
      have h2 : e = (k, e.2) := Prod.ext hek rfl
      rw [← h2]
      exact he
    have hv : valueAt l k = some e.2 := valueAt_eq_some l k e.2 hs hm
    rw [add_hit l k e.2 f hv]
    exact ⟨rfl, hv, rfl⟩

theorem C9_factory_once_witness :
    add_if_not_found [(1, 10)] 0 (fun _ => 7) =
      (insertLB 0 ((fun _ => 7) ()) [(1, 10)], (fun _ => 7) (), 1) ∧
    valueAt (add_if_not_found [(1, 10)] 0 (fun _ => 7)).1 0 = some ((fun _ => 7) ()) :=
  (C9_factory_once [(1, 10)] 0 (fun _ => 7) (by simp [sortedKeys])).1 (by decide)

/-- C10: when the key is already present, emplace_if_not_found and
add_if_not_found leave the map entirely unchanged, both return the value
already stored under the key, and no factory invocation happens. -/
theorem C10_present_frame (l : List (Nat × Nat)) (k v : Nat) (f : Unit → Nat)
    (hs : sortedKeys l) (hk : k ∈ List.map Prod.fst l) :
    (emplace_if_not_found l k v).1 = l ∧
    (add_if_not_found l k f).1 = l ∧
    valueAt l k = some (emplace_if_not_found l k v).2 ∧
    (add_if_not_found l k f).2.1 = (emplace_if_not_found l k v).2 ∧
    (add_if_not_found l k f).2.2 = 0 := by
  obtain ⟨e, he, hek⟩ := List.mem_map.1 hk
  have hm : (k, e.2) ∈ l := by
    have h2 : e = (k, e.2) := Prod.ext hek rfl
    rw [← h2]
    exact he
  have hv : valueAt l k = some e.2 := valueAt_eq_some l k e.2 hs hm
  rw [emplace_hit l k e.2 v hv, add_hit l k e.2 f hv]
  exact ⟨rfl, rfl, hv, rfl, rfl⟩

theorem C10_present_frame_witness :
    (emplace_if_not_found [(1, 10)] 1 99).1 = [(1, 10)] ∧
    (add_if_not_found [(1, 10)] 1 (fun _ => 7)).1 = [(1, 10)] ∧
    valueAt [(1, 10)] 1 = some (emplace_if_not_found [(1, 10)] 1 99).2 ∧
    (add_if_not_found [(1, 10)] 1 (fun _ => 7)).2.1 =
      (emplace_if_not_found [(1, 10)] 1 99).2 ∧
    (add_if_not_found [(1, 10)] 1 (fun _ => 7)).2.2 = 0 :=
  C10_present_frame [(1, 10)] 1 99 (fun _ => 7) (by simp [sortedKeys]) (by decide)

end F5
